import Mathlib

/-!
Verification development for the term-reduction and sentence-composition
engine of the gene-descriptions repository.  The Python source in
`genedescriptions/trimming.py` and `genedescriptions/descriptions_generator.py`
is shallowly embedded below: Python sets over strings become `Finset String`
(or insertion-ordered deduplicated lists where iteration order is
observable), floats (used only as weights compared and multiplied by set sizes) become `Int`, `None`-returning and exception-raising code
becomes `Option`/`Except`, and the unbounded `while` loops become
fuel-indexed recursions whose fuel provably suffices on the entry values
used by the embedded callers.
-/

deriving instance DecidableEq for Except

namespace GeneDesc

/-- Deduplicate a list keeping the first occurrence of every element,
mirroring the insertion order of a Python `set`/`dict` built by repeated
insertion. -/
def firstDedupAux [DecidableEq α] (seen : List α) : List α → List α
  | [] => []
  | x :: xs => if x ∈ seen then firstDedupAux seen xs else x :: firstDedupAux (x :: seen) xs

/-- Deduplicate keeping first occurrences. -/
def firstDedup [DecidableEq α] (l : List α) : List α := firstDedupAux [] l

/-- Embedding of CPython's `for elem in l: if cond(elem): l.remove(elem)`
(trimming.py lines 123-125).  Removing the element at the iterator's current
index shifts the remainder left, so the element immediately following a
removed one is never examined and is always kept. -/
def pyRemovePass (cond : α → Bool) : List α → List α
  | [] => []
  | [x] => if cond x then [] else [x]
  | x :: y :: rest =>
    if cond x then y :: pyRemovePass cond rest
    else x :: pyRemovePass cond (y :: rest)

/-- A node of the ontology collaborator: identifier, label, depth from the
root, information-content score, OBO-style basic property values
(`pred`/`val` pairs), and parent identifiers. -/
structure OntoNode where
  nid : String
  lbl : String
  depth : Nat
  ic : Int
  basicPropVals : List (String × String)
  parents : List String
deriving DecidableEq, Repr

/-- The read-only ontology collaborator (a DAG of `OntoNode`s). -/
structure Ontology where
  nodes : List OntoNode
deriving DecidableEq, Repr

def Ontology.node? (o : Ontology) (i : String) : Option OntoNode :=
  o.nodes.find? (fun n => n.nid == i)

def Ontology.parentsOf (o : Ontology) (i : String) : List String :=
  ((o.node? i).map (·.parents)).getD []

def Ontology.depthOf (o : Ontology) (i : String) : Nat :=
  ((o.node? i).map (·.depth)).getD 0

def Ontology.icOf (o : Ontology) (i : String) : Int :=
  ((o.node? i).map (·.ic)).getD 0

/-- `ontology.label(id)` (no fallback): absent labels modelled as `""`. -/
def Ontology.labelOf (o : Ontology) (i : String) : String :=
  ((o.node? i).map (·.lbl)).getD ("")

/-- `ontology.label(id, id_if_null=True)`. -/
def Ontology.labelD (o : Ontology) (i : String) : String :=
  ((o.node? i).map (·.lbl)).getD i

def Ontology.propsOf (o : Ontology) (i : String) : List (String × String) :=
  ((o.node? i).map (·.basicPropVals)).getD []

/-- The namespace a loop `for basic_prop_val in ...: if pred == "OIO:hasOBONamespace":
root = val` leaves behind: the value of the last matching property. -/
def Ontology.nsLast (o : Ontology) (i : String) : Option String :=
  (((o.propsOf i).filter (fun pv => pv.1 == "OIO:hasOBONamespace")).getLast?).map (·.2)

/-- One expansion step of the ancestor closure. -/
def stepAnc (o : Ontology) (l : List String) : List String :=
  firstDedup (l ++ l.flatMap o.parentsOf)

/-- `ontology.ancestors(node)` (non-reflexive): all nodes reachable through
parent edges.  Iterating the one-step expansion `|nodes|` times reaches the
closure on any DAG over the ontology's nodes. -/
def Ontology.ancestors (o : Ontology) (i : String) : List String :=
  (stepAnc o)^[o.nodes.length] (o.parentsOf i)

/-- `ontology.ancestors(node, reflexive=True)`. -/
def Ontology.ancestorsRefl (o : Ontology) (i : String) : List String :=
  i :: o.ancestors i

/-- Step of `nodes_have_same_root` over one node's property list
(trimming.py lines 49-56): each matching property is compared against the
accumulated root (a falsy accumulated root is never compared) and then
overwrites it; a genuine mismatch aborts with `none` (Python `False`). -/
def nhsrProps (common : Option String) : List (String × String) → Option (Option String)
  | [] => some common
  | pv :: rest =>
    if pv.1 == "OIO:hasOBONamespace" then
      match common with
      | some c => if c ≠ "" && c ≠ pv.2 then none else nhsrProps (some pv.2) rest
      | none => nhsrProps (some pv.2) rest
    else nhsrProps common rest

def nhsrGo (o : Ontology) (common : Option String) : List String → Option (Option String)
  | [] => some common
  | i :: rest =>
    match nhsrProps common (o.propsOf i) with
    | none => none
    | some c => nhsrGo o c rest

/-- `TrimmingAlgorithm.nodes_have_same_root`: `none` stands for both the
Python `False` (mismatching roots) and the final `None` (no namespace
found), which are indistinguishable to the only caller's falsiness check. -/
def nodesHaveSameRoot (o : Ontology) (ids : List String) : Option String :=
  match nhsrGo o none ids with
  | none => none
  | some c => c

/-- Falsiness of the `nodes_have_same_root` result as tested by
`get_all_trimming_candidates`. -/
def rootFalsy : Option String → Bool
  | none => true
  | some s => s == ""

/-- `TrimmingCandidate` (trimming.py lines 12-16). -/
structure TrimmingCandidate where
  nodeId : String
  nodeLabel : String
  coveredStartingNodes : Finset String
deriving DecidableEq

/-- The per-ancestor filter of `get_all_trimming_candidates` (lines 82-85):
depth at least the minimum, ancestor's namespace falsy or equal to the
common root, ancestor not blacklisted. -/
def candFilterOk (o : Ontology) (minDist : Nat) (bl : List String) (root : String)
    (a : String) : Bool :=
  decide (minDist ≤ o.depthOf a)
    && (match o.nsLast a with
        | none => true
        | some r => r == "" || r == root)
    && !(bl.contains a)

/-- `TrimmingAlgorithm.get_all_trimming_candidates` (lines 59-89).  The
`ancestors` defaultdict keyed by first encounter is reconstructed as: keys in
first-encounter order, and for each key the covered list is the sublist of
`node_ids` whose reflexive ancestors contain the key (the filter depends only
on the key, so this coincides with the appended lists). -/
def getAllTrimmingCandidates (o : Ontology) (ids : List String) (minDist : Nat)
    (bl : List String) : Except String (List TrimmingCandidate) :=
  let r := nodesHaveSameRoot o ids
  if rootFalsy r then
    .error ("Cannot get common ancestors of nodes connected to different roots")
  else
    let root := r.getD ("")
    let keys := firstDedup (ids.flatMap (fun n =>
      (o.ancestorsRefl n).filter (candFilterOk o minDist bl root)))
    .ok (keys.filterMap (fun a =>
      let cov := ids.filter (fun n => (o.ancestorsRefl n).contains a)
      if cov.length > 1 || cov.head? == some a then
        some ⟨a, o.labelOf a, cov.toFinset⟩
      else none))

/-- Lexicographic comparison of character lists by code point, the
comparison CPython uses on `str`. -/
def charListLt : List Char → List Char → Bool
  | [], [] => false
  | [], _ :: _ => true
  | _ :: _, [] => false
  | c :: cs, d :: ds =>
    if c.toNat < d.toNat then true
    else if d.toNat < c.toNat then false
    else charListLt cs ds

/-- CPython `s1 < s2` on strings. -/
def strLt (a b : String) : Bool := charListLt a.data b.data

/-- One entry of the `effect_sets` list built at each iteration of
`find_set_covering` (lines 113-120): score, covered set, label, id. -/
structure EffectEntry where
  score : Int
  cov : Finset String
  lbl : String
  nid : String
deriving DecidableEq

/-- The `effect_sets` list: candidates still to process, scored by marginal
coverage, multiplied by the parallel weight when a (truthy, i.e. non-empty)
weight list is given. -/
def effectList (subsets : List TrimmingCandidate) (value : List Int) (etp : List String)
    (included : Finset String) : List EffectEntry :=
  match value with
  | [] =>
    subsets.filterMap (fun s =>
      if etp.contains s.nodeId then
        some ⟨((s.coveredStartingNodes \ included).card : Int), s.coveredStartingNodes,
          s.nodeLabel, s.nodeId⟩
      else none)
  | _ =>
    (subsets.zip value).filterMap (fun sv =>
      if etp.contains sv.1.nodeId then
        some ⟨sv.2 * ((sv.1.coveredStartingNodes \ included).card : Int),
          sv.1.coveredStartingNodes, sv.1.nodeLabel, sv.1.nodeId⟩
      else none)

/-- `a` sorts strictly before `b` under the key `(- score, label)` used by
`sorted(..., key=lambda x: (- x[0], x[2]))`. -/
def betterKey (a b : EffectEntry) : Bool :=
  decide (b.score < a.score) || (decide (a.score = b.score) && strLt a.lbl b.lbl)

/-- `effect_sets[0]` after the stable sort: the first entry with the minimal
key, i.e. the leftmost entry of maximal score and, among those, minimal
label. -/
def selectBest : List EffectEntry → Option EffectEntry
  | [] => none
  | x :: xs => some (xs.foldl (fun best y => if betterKey y best then y else best) x)

/-- Union of all candidates' covered sets: the `universe` of
`find_set_covering`. -/
def subsetsUniverse (subsets : List TrimmingCandidate) : Finset String :=
  subsets.foldr (fun s acc => s.coveredStartingNodes ∪ acc) ∅

/-- The `while` loop of `find_set_covering` (lines 111-127), fueled.  The
fuel equals the number of distinct candidate ids at entry; each iteration
removes the selected id from `elem_to_process`, so the fuel never runs out
before the loop condition fails.  `none` models the `IndexError` of
`effect_sets[0]` on an empty list (unreachable from `findSetCovering`). -/
def fscLoop (o : Ontology) (subsets : List TrimmingCandidate) (value : List Int)
    (cap : Nat) :
    Nat → List String → Finset String → Finset String →
    List (String × Finset String) → Option (List (String × Finset String))
  | 0, _, _, _, sets => some sets
  | fuel + 1, etp, univ, included, sets =>
    if !etp.isEmpty && decide (included ≠ univ) && (cap == 0 || decide (sets.length < cap)) then
      match selectBest (effectList subsets value etp included) with
      | none => none
      | some b =>
        let etp' := etp.erase b.nid
        let sets' := pyRemovePass (fun e => (o.ancestors e.1).contains b.nid) sets
        fscLoop o subsets value cap fuel etp' univ (included ∪ b.cov)
          (sets' ++ [(b.nid, b.cov)])
    else some sets

/-- `TrimmingAlgorithm.find_set_covering` (lines 91-129).  Returns `none`
exactly when a truthy (non-empty) weight list's length differs from the
number of distinct candidate ids. -/
def findSetCovering (o : Ontology) (subsets : List TrimmingCandidate) (value : List Int)
    (cap : Nat) : Option (List (String × Finset String)) :=
  let etp := firstDedup (subsets.map (·.nodeId))
  if !value.isEmpty && value.length != etp.length then none
  else fscLoop o subsets value cap etp.length etp (subsetsUniverse subsets) ∅ []

/-- `TrimmingAlgorithmIC.get_candidate_ic_value` (lines 140-161). -/
def getCandidateICValue (o : Ontology) (minDist : Nat) (bonus : Int) (slim : List String)
    (ids : List String) (c : TrimmingCandidate) : Int :=
  if !(ids.contains c.nodeId) && o.depthOf c.nodeId < minDist then 0
  else if !slim.isEmpty && slim.contains c.nodeId then o.icOf c.nodeId * (1 + bonus)
  else o.icOf c.nodeId

/-- Union of the covered sets of a solver result. -/
def unionCov (l : List (String × Finset String)) : Finset String :=
  l.foldr (fun p acc => p.2 ∪ acc) ∅

/-- `TrimmingAlgorithmIC.trim` (lines 163-185): candidates (built with the
default minimum distance 0), IC weights, zero-IC candidates dropped, set
covering, and the under-coverage flag `covered_terms != set(node_ids)`. -/
def icTrim (o : Ontology) (minDist : Nat) (bl : List String) (bonus : Int)
    (slim : List String) (ids : List String) (cap : Nat) :
    Except String (Bool × List (String × Finset String)) := do
  let cands ← getAllTrimmingCandidates o ids 0 bl
  let values := cands.map (getCandidateICValue o minDist bonus slim ids)
  let pairs := (cands.zip values).filter (fun p => decide (0 < p.2))
  match findSetCovering o (pairs.map (·.1)) (pairs.map (·.2)) cap with
  | none => .error ("set covering returned no result")
  | some best => .ok (decide (unionCov best ≠ ids.toFinset), best)

/-- Lookup of a candidate's covered set in the `candidates_dict` of
`TrimmingAlgorithmLCA.trim`. -/
def covD (cd : List (String × String × Finset String)) (c : String) : Finset String :=
  (((cd.find? (fun e => e.1 == c)).map (fun e => e.2.2)).getD ∅)

/-- The `while` loop of `TrimmingAlgorithmLCA.trim` (lines 203-226), fueled
by the number of candidates; `set.pop()` is determinized to the head of the
remaining insertion-ordered id list.  The comparison at lines 217-219 is
embedded literally, including the duplicated conjunct. -/
def lcaLoop (o : Ontology) (cd : List (String × String × Finset String)) :
    Nat → List String → List String → List String
  | 0, _, selected => selected
  | _ + 1, [], selected => selected
  | fuel + 1, cand :: rest, selected =>
    let candCov := covD cd cand
    let comparable := cd.filterMap (fun e =>
      if e.1 ≠ cand ∧ candCov ⊆ e.2.2 then some (e.1, e.2.2) else none)
    match comparable with
    | [] => lcaLoop o cd fuel rest (selected ++ [cand])
    | _ =>
      let maxLen := (comparable.map (fun x => x.2.card)).foldl max 0
      let best1 := comparable.filter (fun x => x.2.card == maxLen)
      let (bestCands, maxW) :=
        if best1.length > 1 then
          let maxD := (best1.map (fun x => o.depthOf x.1)).foldl max 0
          (best1.filter (fun x => o.depthOf x.1 == maxD), maxD)
        else (best1, o.depthOf (best1.headD ("", ∅)).1)
      let bestCands :=
        if candCov.card > (bestCands.headD ("", ∅)).2.card ∨
            (candCov.card > (bestCands.headD ("", ∅)).2.card ∧ o.depthOf cand > maxW) then
          [(cand, candCov)]
        else bestCands
      let selected' := selected ++ bestCands.map (·.1)
      let etp' := bestCands.foldl
        (fun acc bc => acc.filter (fun c => decide (covD cd c ∩ bc.2 = ∅))) rest
      lcaLoop o cd fuel etp' selected'

/-- `TrimmingAlgorithmLCA.trim` (lines 193-235). -/
def lcaTrim (o : Ontology) (minDist : Nat) (bl : List String) (ids : List String)
    (cap : Nat) : Except String (Bool × List (String × Finset String)) := do
  let cands ← getAllTrimmingCandidates o ids minDist bl
  let cd := cands.map (fun c => (c.nodeId, c.nodeLabel, c.coveredStartingNodes))
  let etp := cd.map (·.1)
  let selected := lcaLoop o cd cd.length etp []
  if selected.length ≤ cap then
    .ok (false, selected.map (fun i => (i, covD cd i)))
  else
    match findSetCovering o (selected.map (fun i => ⟨i, o.labelD i, covD cd i⟩)) [] cap with
    | none => .error ("set covering returned no result")
    | some best => .ok (decide (unionCov best ≠ ids.toFinset), best)

/-- Paths-keyed-by-last-ancestor map (`ancestor_paths` defaultdict) and the
per-term path sets (`term_paths` defaultdict), both as insertion-ordered
association lists. -/
abbrev PathMap := List (String × List (List String))

def pmLookup (m : PathMap) (k : String) : List (List String) :=
  ((m.find? (fun e => e.1 == k)).map (·.2)).getD []

def pmHasKey (m : PathMap) (k : String) : Bool := m.any (fun e => e.1 == k)

/-- `del m[k]` (keys are unique). -/
def pmErase (m : PathMap) (k : String) : PathMap := m.filter (fun e => !(e.1 == k))

/-- `m[k].append(p)` on a defaultdict of lists. -/
def pmAppend (m : PathMap) (k : String) (p : List String) : PathMap :=
  match m with
  | [] => [(k, [p])]
  | e :: rest => if e.1 == k then (e.1, e.2 ++ [p]) :: rest else e :: pmAppend rest k p

/-- `m[k].add(p)` on a defaultdict of sets (insertion-ordered, no
duplicates). -/
def pmAddSet (m : PathMap) (k : String) (p : List String) : PathMap :=
  match m with
  | [] => [(k, [p])]
  | e :: rest =>
    if e.1 == k then (if p ∈ e.2 then e :: rest else (e.1, e.2 ++ [p]) :: rest)
    else e :: pmAddSet rest k p

/-- `m[k].discard(p)`. -/
def pmDiscard (m : PathMap) (k : String) (p : List String) : PathMap :=
  m.map (fun e => if e.1 == k then (e.1, e.2.erase p) else e)

/-- Truthiness of an optional root/namespace string. -/
def rootTruthy : Option String → Bool
  | none => false
  | some s => !(s == "")

/-- `TrimmingAlgorithmNaive.get_all_paths_to_root` (lines 306-358), fueled
by one more than the ontology size (enough for any path in a DAG over its
nodes); the returned Python set of tuples becomes a first-encounter-ordered
deduplicated list. -/
def getAllPathsToRoot (o : Ontology) (minDist : Nat) (bl : List String)
    (rootNode : Option String) : Nat → String → List String → List (List String)
  | 0, nodeId, prev =>
    let newPath := if bl.contains nodeId then prev else prev ++ [nodeId]
    if newPath.isEmpty then [[nodeId]] else [newPath]
  | fuel + 1, nodeId, prev =>
    let newPath := if bl.contains nodeId then prev else prev ++ [nodeId]
    let ps := (o.parentsOf nodeId).filter (fun p => decide (minDist ≤ o.depthOf p))
    let ps :=
      if rootTruthy rootNode then
        ps.filter (fun p =>
          match o.nsLast p with
          | some r => !(r == "") && r == rootNode.getD ("")
          | none => false)
      else ps
    if ps.isEmpty then
      if newPath.isEmpty then [[nodeId]] else [newPath]
    else
      firstDedup (ps.flatMap (fun p => getAllPathsToRoot o minDist bl rootNode fuel p newPath))

/-- Step 1 of `TrimmingAlgorithmNaive.trim` (lines 248-261): per-term path
enumeration populating `term_paths` and `ancestor_paths`. -/
def naiveStep1 (o : Ontology) (minDist : Nat) (bl : List String) (ids : List String) :
    PathMap × PathMap :=
  ids.foldl (fun st nodeId =>
    let root := o.nsLast nodeId
    let paths := getAllPathsToRoot o minDist bl root (o.nodes.length + 1) nodeId []
    paths.foldl (fun st2 p =>
      (pmAddSet st2.1 nodeId p, pmAppend st2.2 (p.getLastD ("")) p)) st) ([], [])

/-- The inner ancestor walk of the naive merge (lines 277-288).  The walk
consumes the current path from its root end; it receives the remaining path
REVERSED (so popping the last element is structural), and `k` is the
distance `-i` from the end of each related path at which agreement is
tested. -/
def naiveWalk (related : List (List String)) :
    Nat → List String → String → PathMap → PathMap → String × PathMap × PathMap
  | _, [], sel, ap, tp => (sel, ap, tp)
  | _, [_], sel, ap, tp => (sel, ap, tp)
  | k, cha :: rest₀ :: rest, sel, ap, tp =>
    if !(related.all (fun p => k ≤ p.length)) then (sel, ap, tp)
    else if related.all (fun p => p.getD (p.length - k) "" == cha) then
      let ap' := if pmHasKey ap cha then pmErase ap cha else ap
      let tp' := related.foldl (fun t p => pmDiscard t (p.headD ("")) p) tp
      naiveWalk related (k + 1) (rest₀ :: rest) cha ap' tp'
    else naiveWalk related (k + 1) (rest₀ :: rest) sel ap tp

/-- `final_terms_set[k] = v`: update in place, insert at the end when the
key is new. -/
def ftUpdate : List (String × Finset String) → String → Finset String →
    List (String × Finset String)
  | [], k, v => [(k, v)]
  | e :: rest, k, v => if e.1 == k then (k, v) :: rest else e :: ftUpdate rest k v

/-- One iteration of the naive merge loop body for the current path `curr`
(lines 266-291).  Returns the new state and whether the surrounding loop
breaks (empty related-paths list, line 269-270). -/
def naiveIter (ft : List (String × Finset String)) (ap tp : PathMap)
    (curr : List String) : (List (String × Finset String) × PathMap × PathMap) × Bool :=
  let sel0 := curr.getLastD ("")
  let curr' := curr.dropLast
  let related := pmLookup ap sel0
  if related.isEmpty then ((ft, ap, tp), true)
  else
    let covered : Finset String := (related.map (fun p => p.headD (""))).toFinset
    let ap1 := pmErase ap sel0
    let (sel, ap2, tp2) :=
      if !curr'.isEmpty then
        if related.all (fun p => p.headD ("") == curr'.headD ("")) then
          (curr'.headD (""), ap1, tp)
        else naiveWalk related 2 curr'.reverse sel0 ap1 tp
      else (sel0, ap1, tp)
    let ft' := ftUpdate ft sel covered
    let tp3 := related.foldl (fun t p => pmDiscard t (p.headD ("")) p) tp2
    ((ft', ap2, tp3), false)

/-- Stable ascending insertion by path length (`sorted(..., key=len)`). -/
def sortByLenIns (p : List String) : List (List String) → List (List String)
  | [] => [p]
  | q :: rest => if p.length < q.length then p :: q :: rest else q :: sortByLenIns p rest

/-- Stable sort of a term's paths by ascending length. -/
def sortByLen (l : List (List String)) : List (List String) := l.foldr sortByLenIns []

/-- Iterations 2.. of the per-term `while` loop: `term_paths_copy` is
re-copied from `term_paths[node_id]` after every iteration, and `set.pop()`
is determinized to the head of the insertion-ordered remainder. -/
def naiveNodeRest (node : String) :
    Nat → List (String × Finset String) × PathMap × PathMap →
    List (String × Finset String) × PathMap × PathMap
  | 0, st => st
  | fuel + 1, (ft, ap, tp) =>
    match pmLookup tp node with
    | [] => (ft, ap, tp)
    | curr :: _ =>
      let (st', brk) := naiveIter ft ap tp curr
      if brk then st' else naiveNodeRest node fuel st'

/-- Total number of stored paths, used as loop fuel. -/
def pmSize (m : PathMap) : Nat := (m.map (fun e => e.2.length)).foldl (· + ·) 0

/-- The whole per-term `while` loop (lines 264-295): the first iteration
pops the LAST path of the ascending length-sorted copy (Python `list.pop()`
on `sorted(...)`), later iterations take paths from a fresh copy of the
term's remaining path set. -/
def naiveNode (st : List (String × Finset String) × PathMap × PathMap) (node : String) :
    List (String × Finset String) × PathMap × PathMap :=
  match (sortByLen (pmLookup st.2.2 node)).getLast? with
  | none => st
  | some curr =>
    let (st', brk) := naiveIter st.1 st.2.1 st.2.2 curr
    if brk then st' else naiveNodeRest node (pmSize st'.2.2 + 1) st'

/-- Stable ascending insertion of a string (`sorted(node_ids)`). -/
def sortStrIns (s : String) : List String → List String
  | [] => [s]
  | t :: rest => if strLt s t then s :: t :: rest else t :: sortStrIns s rest

/-- Stable lexicographic sort of the term ids. -/
def sortStr (l : List String) : List String := l.foldr sortStrIns []

/-- `TrimmingAlgorithmNaive.trim` (lines 243-304). -/
def naiveTrim (o : Ontology) (minDist : Nat) (bl : List String) (ids : List String)
    (cap : Nat) : Bool × List (String × Finset String) :=
  let (tp, ap) := naiveStep1 o minDist bl ids
  let ft := ((sortStr ids).foldl naiveNode ([], ap, tp)).1
  if ft.length ≤ cap then (false, ft)
  else
    match findSetCovering o (ft.map (fun e => ⟨e.1, o.labelD e.1, e.2⟩)) [] cap with
    | none => (true, [])
    | some best => (decide (unionCov best ≠ ids.toFinset), best)

/-- Modelled from the spec: the spec (§4.2, Naive path-merge) says the
algorithm proceeds by "repeatedly taking the shortest remaining path for the
current term".  This variant differs from the source embedding `naiveNode`
in exactly one place: the first path processed for a term is the HEAD
(shortest) of the ascending length-sorted copy instead of the popped last
(longest) element. -/
def naiveNodeSpec (st : List (String × Finset String) × PathMap × PathMap)
    (node : String) : List (String × Finset String) × PathMap × PathMap :=
  match (sortByLen (pmLookup st.2.2 node)).head? with
  | none => st
  | some curr =>
    let (st', brk) := naiveIter st.1 st.2.1 st.2.2 curr
    if brk then st' else naiveNodeRest node (pmSize st'.2.2 + 1) st'

/-- Modelled from the spec: `TrimmingAlgorithmNaive.trim` as the spec words
it, taking the shortest remaining path first (see `naiveNodeSpec`);
otherwise identical to `naiveTrim`. -/
def naiveTrimSpecShortest (o : Ontology) (minDist : Nat) (bl : List String)
    (ids : List String) (cap : Nat) : Bool × List (String × Finset String) :=
  let (tp, ap) := naiveStep1 o minDist bl ids
  let ft := ((sortStr ids).foldl naiveNodeSpec ([], ap, tp)).1
  if ft.length ≤ cap then (false, ft)
  else
    match findSetCovering o (ft.map (fun e => ⟨e.1, o.labelD e.1, e.2⟩)) [] cap with
    | none => (true, [])
    | some best => (decide (unionCov best ≠ ids.toFinset), best)

/-- `OntologySentenceGenerator.remove_children_if_parents_present`
(descriptions_generator.py lines 240-258): keep a term when none of its
ancestors is among the terms, or when it is high-priority; when the
collecting set is present (`collect`), record the labels of the ancestors
that shadowed each dropped term.  Returning the filtered list also covers
the unchanged case, where the filter keeps everything. -/
def removeChildrenIfParentsPresent (o : Ontology) (terms : List String)
    (hp : List String) (collect : Bool) : List String × Finset String :=
  let keep := fun t =>
    decide ((o.ancestors t).toFinset ∩ terms.toFinset = ∅)
      || (!hp.isEmpty && hp.contains t)
  let kept := terms.filter keep
  let collected : Finset String :=
    if collect then
      (terms.filter (fun t => !keep t)).foldr (fun t acc =>
        ((o.ancestors t).filter (fun a => terms.contains a)).foldr
          (fun a acc2 => insert (o.labelD a) acc2) acc) ∅
    else ∅
  (kept, collected)

/-- `OntologySentenceGenerator.get_trimmed_terms_by_common_ancestor`
(lines 197-238).  The external trimming dispatcher `get_best_nodes`
(ontology_tools, not under src/) is abstracted as the argument `gbn`,
returning the reduced term list and the `add_others` flag; the Python set
`terms` is determinized to an insertion-ordered list; the mutable
`terms_already_covered` set influences nothing returned here and is not
threaded. -/
def getTrimmedTermsByCommonAncestor (o : Ontology)
    (gbn : List String → Nat → List String × Bool) (maxTerms : Nat) (addMul : Bool)
    (terms : List String) (hp : List String) : List String × Bool × Finset String :=
  let hpT0 := if hp.isEmpty then [] else terms.filter (fun t => hp.contains t)
  let hpAnc :=
    if hpT0.length > maxTerms then removeChildrenIfParentsPresent o hpT0 [] addMul
    else (hpT0, ∅)
  let hpRes := if hpAnc.1.length > maxTerms then gbn hpAnc.1 maxTerms else (hpAnc.1, false)
  let low0 := if hp.isEmpty then terms else terms.filter (fun t => !hp.contains t)
  let thr : Int := (maxTerms : Int) - hpRes.1.length
  let lowRes :=
    if 0 < thr ∧ thr < (low0.length : Int) then gbn low0 thr.toNat
    else (low0, decide (thr ≤ 0 ∧ 0 < low0.length))
  let res := (hpRes.1 ++ firstDedup (lowRes.1.filter (fun t => !hpRes.1.contains t))).take maxTerms
  (res, hpRes.2 || lowRes.2, hpAnc.2)

/-- First entry of minimal length (`sorted(zip(...), key=len)[0][0]`,
stable). -/
def minByLen (ps : List (List Char)) : List Char :=
  match ps with
  | [] => []
  | x :: xs => xs.foldl (fun best y => if y.length < best.length then y else best) x

/-- All phrases agree with the shortest one at index `i` from the start. -/
def allAgreeAt (ps : List (List Char)) (short : List Char) (i : Nat) : Bool :=
  ps.all (fun p => p.getD i 'a' == short.getD i 'a')

def cpLenAux (ps : List (List Char)) (short : List Char) : Nat → Nat → Nat
  | 0, i => i
  | fuel + 1, i =>
    if i < short.length && allAgreeAt ps short i then cpLenAux ps short fuel (i + 1) else i

/-- Length of the character-by-character common prefix grown at lines
350-355. -/
def commonPrefLen (ps : List (List Char)) (short : List Char) : Nat :=
  cpLenAux ps short short.length 0

/-- All phrases agree with the shortest one at distance `i` from the end. -/
def allAgreeEnd (ps : List (List Char)) (short : List Char) (i : Nat) : Bool :=
  ps.all (fun p => p.getD (p.length - i - 1) 'a' == short.getD (short.length - i - 1) 'a')

def csLenAux (ps : List (List Char)) (short : List Char) : Nat → Nat → Nat
  | 0, m => m
  | fuel + 1, m =>
    if m < short.length && allAgreeEnd ps short m then csLenAux ps short fuel (m + 1) else m

/-- Length of the common suffix grown at lines 356-362. -/
def commonSufLen (ps : List (List Char)) (short : List Char) : Nat :=
  csLenAux ps short short.length 0

def pyReplaceGo (pat repl : List Char) : Nat → List Char → List Char
  | 0, s => s
  | _ + 1, [] => []
  | fuel + 1, c :: rest =>
    if pat.isPrefixOf (c :: rest) then repl ++ pyReplaceGo pat repl fuel ((c :: rest).drop pat.length)
    else c :: pyReplaceGo pat repl fuel rest

/-- CPython `str.replace`: replaces every non-overlapping occurrence left to
right; an empty pattern inserts the replacement around every character. -/
def pyReplace (s pat repl : List Char) : List Char :=
  if pat.isEmpty then repl ++ s.flatMap (fun c => c :: repl)
  else pyReplaceGo pat repl (s.length + 1) s

/-- CPython `str.strip()`. -/
def pyStrip (s : List Char) : List Char :=
  ((s.dropWhile Char.isWhitespace).reverse.dropWhile Char.isWhitespace).reverse

/-- CPython `str.split(" ")` (keeps empty fragments; `""` yields `[""]`). -/
def splitSp : List Char → List (List Char)
  | [] => [[]]
  | c :: rest =>
    match splitSp rest with
    | [] => if c == ' ' then [[], []] else [[c]]
    | h :: t => if c == ' ' then [] :: h :: t else (c :: h) :: t

def intercalateC (sep : List Char) : List (List Char) → List Char
  | [] => []
  | [x] => x
  | x :: y :: rest => x ++ sep ++ intercalateC sep (y :: rest)

/-- `OntologySentenceGenerator.merge_postfix_phrases` (lines 335-375).  The
`inflect` pluralizer is an external collaborator and is abstracted as the
argument `plural`. -/
def mergePostfixPhrases (plural : String → String) (phrases : List String) : String :=
  let ps := phrases.filter (fun p => !p.isEmpty)
  match ps with
  | [] => ""
  | [p] => p
  | _ :: _ :: _ =>
    let psC := ps.map (·.data)
    let short := minByLen psC
    let firstPart := short.take (commonPrefLen psC short)
    let lastPart := short.drop (short.length - commonSufLen psC short)
    let newPhrases := psC.map (fun p => pyReplace (pyReplace p firstPart []) lastPart [])
    let lastPartS :=
      if (splitSp (pyStrip lastPart)).length == 1 then (plural (String.mk lastPart)).data
      else lastPart
    let joined :=
      if newPhrases.length > 2 then
        intercalateC (", ".data) newPhrases.dropLast ++ (", and ".data) ++ newPhrases.getLastD []
      else if newPhrases.length > 1 then intercalateC (" and ".data) newPhrases
      else newPhrases.headD []
    String.mk (firstPart ++ joined ++ lastPartS)

/-- The `Sentence` record (commons module; fields used by the merger). -/
structure GDSentence where
  pfx : String
  termsIds : List String
  pofx : String
  text : String
  aspect : String
  evidenceGroup : String
  qualifier : String
  addlPfx : String
  trimmedFlag : Bool
  termsMerged : Bool
  ancMult : Finset String
deriving DecidableEq

/-- `SentenceMerger` (descriptions_generator.py lines 31-42); the Python
sets are insertion-ordered lists. -/
structure GDMerger where
  pofxList : List String
  termsIds : List String
  termPofx : List (String × String)
  evGroups : List String
  termEvg : List (String × String)
  addlPfx : String
  aspect : String
  qualifier : String
  ancMult : Finset String
  anyTrimmed : Bool
deriving DecidableEq

def emptyMerger : GDMerger := ⟨[], [], [], [], [], "", "", "", ∅, false⟩

/-- `merged_sentences[prefix]` on a `defaultdict(SentenceMerger)`:
update in place, create at the end when absent. -/
def mUpdate (l : List (String × GDMerger)) (k : String) (f : GDMerger → GDMerger) :
    List (String × GDMerger) :=
  match l with
  | [] => [(k, f emptyMerger)]
  | e :: rest => if e.1 == k then (e.1, f e.2) :: rest else e :: mUpdate rest k f

/-- `d[k] = v` on a Python dict. -/
def dictSet (d : List (String × String)) (k v : String) : List (String × String) :=
  match d with
  | [] => [(k, v)]
  | e :: rest => if e.1 == k then (k, v) :: rest else e :: dictSet rest k v

/-- One iteration of the accumulation loop of
`merge_sentences_with_same_prefix` (lines 289-307). -/
def mergeStep (pmap : String × String × String → String × String)
    (ms : List (String × GDMerger)) (s : GDSentence) : List (String × GDMerger) :=
  let pp := pmap (s.aspect, s.evidenceGroup, s.qualifier)
  mUpdate ms pp.1 (fun m =>
    { m with
      pofxList := m.pofxList ++ [pp.2]
      aspect := s.aspect
      qualifier := s.qualifier
      termsIds := s.termsIds.foldl (fun acc t => if t ∈ acc then acc else acc ++ [t]) m.termsIds
      termPofx := s.termsIds.foldl (fun d t => dictSet d t pp.2) m.termPofx
      evGroups := m.evGroups ++ [s.evidenceGroup]
      termEvg := s.termsIds.foldl (fun d t => dictSet d t s.evidenceGroup) m.termEvg
      addlPfx := if !s.addlPfx.isEmpty then s.addlPfx else m.addlPfx
      ancMult := m.ancMult ∪ s.ancMult
      anyTrimmed := m.anyTrimmed || s.trimmedFlag })

/-- The optional parent-removal pass across each merged group (lines
308-317). -/
def mergeRemoveParents (o : Ontology) (hp : List String)
    (ms : List (String × GDMerger)) : List (String × GDMerger) :=
  ms.map (fun e =>
    let anc := e.2.termsIds.flatMap (fun t =>
      (o.ancestors t).filter (fun a => hp.isEmpty || !hp.contains a))
    (e.1, { e.2 with termsIds := e.2.termsIds.filter (fun t => !anc.contains t) }))

/-- Modelled from the spec: `compose_sentence`
(sentence_generation_functions.py) is not under src/; the spec (§4.4) says
the produced text is `prefix + joined term labels + postfix`, with the
optional additional prefix attached to the prefix. -/
def composeSentence (pfx addl : String) (lbls : List String) (pofx : String) : String :=
  pfx ++ (if addl.isEmpty then ("") else (" ") ++ addl) ++ " " ++ String.intercalate (", ") lbls
    ++ (if pofx.isEmpty then ("") else (" ") ++ pofx)

/-- `OntologySentenceGenerator.merge_sentences_with_same_prefix`
(lines 274-333). -/
def mergeSentencesWithSamePfx (o : Ontology)
    (pmap : String × String × String → String × String) (plural : String → String)
    (removeParent : Bool) (hp : List String) (sentences : List GDSentence) :
    List GDSentence :=
  let ms := sentences.foldl (mergeStep pmap) []
  let ms := if removeParent then mergeRemoveParents o hp ms else ms
  ms.filterMap (fun e =>
    if e.2.termsIds.isEmpty then none
    else some
      { pfx := e.1
        termsIds := e.2.termsIds
        pofx := mergePostfixPhrases plural e.2.pofxList
        text := composeSentence e.1 e.2.addlPfx (e.2.termsIds.map o.labelD)
          (mergePostfixPhrases plural e.2.pofxList)
        aspect := e.2.aspect
        evidenceGroup := String.intercalate (", ") e.2.evGroups
        qualifier := e.2.qualifier
        addlPfx := e.2.addlPfx
        trimmedFlag := e.2.anyTrimmed
        termsMerged := true
        ancMult := e.2.ancMult })

/-!  Concrete fixtures used by the counterexamples and witnesses below. -/

def mkNode (i : String) (l : String) (d : Nat) (q : Int) (ns : List (String × String))
    (ps : List String) : OntoNode := ⟨i, l, d, q, ns, ps⟩

def ont1 : Ontology := ⟨[
  mkNode ("A") "A" 3 1 [("OIO:hasOBONamespace", "ns")] [],
  mkNode ("B") "B" 3 1 [("OIO:hasOBONamespace", "ns")] []]⟩

def ont3 : Ontology := ⟨[
  mkNode ("n1") "d1" 1 1 [] ["n3"],
  mkNode ("n2") "d2" 1 1 [] ["n3"],
  mkNode ("n3") "a" 0 1 [] []]⟩

def subs3 : List TrimmingCandidate := [
  ⟨"n1", "d1", {"x"}⟩, ⟨"n2", "d2", {"y"}⟩, ⟨"n3", "a", {"x", "y", "z"}⟩]

def ontM : Ontology := ⟨[
  mkNode ("t1") "t1" 0 1 [("OIO:hasOBONamespace", "nsa")] [],
  mkNode ("t2") "t2" 0 1 [("OIO:hasOBONamespace", "nsb")] []]⟩

def ontN : Ontology := ⟨[
  mkNode ("t1") "t1" 0 1 [("OIO:hasOBONamespace", "N")] ["a", "b"],
  mkNode ("a") "a" 0 1 [("OIO:hasOBONamespace", "N")] [],
  mkNode ("b") "b" 0 1 [("OIO:hasOBONamespace", "N")] ["c"],
  mkNode ("c") "c" 0 1 [("OIO:hasOBONamespace", "N")] [],
  mkNode ("t2") "t2" 0 1 [("OIO:hasOBONamespace", "N")] ["c"]]⟩

def pmapC : String × String × String → String × String :=
  fun k => if k = ("C", "EXP", "") then ("Prefix", "in the cell") else ("", "")

def sC : GDSentence :=
  { pfx := "Prefix", termsIds := ["T"], pofx := "in the cell",
    text := composeSentence ("Prefix") "" ["T"] "in the cell",
    aspect := "C", evidenceGroup := "EXP", qualifier := "", addlPfx := "",
    trimmedFlag := false, termsMerged := false, ancMult := ∅ }

/-!  Helper lemmas. -/

theorem charListLt_irrefl : ∀ a, charListLt a a = false
  | [] => rfl
  | c :: cs => by
    simp only [charListLt, Nat.lt_irrefl, if_false]
    exact charListLt_irrefl cs

theorem charListLt_trans : ∀ a b c, charListLt a b = true → charListLt b c = true →
    charListLt a c = true
  | [], _ :: _, _ :: _, _, _ => rfl
  | [], [], _, h1, _ => by simp [charListLt] at h1
  | [], _ :: _, [], _, h2 => by simp [charListLt] at h2
  | _ :: _, [], _, h1, _ => by simp [charListLt] at h1
  | _ :: _, _ :: _, [], _, h2 => by simp [charListLt] at h2
  | x :: xs, y :: ys, z :: zs, h1, h2 => by
    have h1' : x.toNat < y.toNat ∨ (x.toNat = y.toNat ∧ charListLt xs ys = true) := by
      simp only [charListLt] at h1
      by_cases a : x.toNat < y.toNat
      · exact Or.inl a
      · rw [if_neg a] at h1
        by_cases b : y.toNat < x.toNat
        · rw [if_pos b] at h1; cases h1
        · rw [if_neg b] at h1; exact Or.inr ⟨by omega, h1⟩
    have h2' : y.toNat < z.toNat ∨ (y.toNat = z.toNat ∧ charListLt ys zs = true) := by
      simp only [charListLt] at h2
      by_cases a : y.toNat < z.toNat
      · exact Or.inl a
      · rw [if_neg a] at h2
        by_cases b : z.toNat < y.toNat
        · rw [if_pos b] at h2; cases h2
        · rw [if_neg b] at h2; exact Or.inr ⟨by omega, h2⟩
    simp only [charListLt]
    rcases h1' with h1' | ⟨he1, hr1⟩
    · rcases h2' with h2' | ⟨he2, _⟩
      · rw [if_pos (by omega : x.toNat < z.toNat)]
      · rw [if_pos (by omega : x.toNat < z.toNat)]
    · rcases h2' with h2' | ⟨he2, hr2⟩
      · rw [if_pos (by omega : x.toNat < z.toNat)]
      · rw [if_neg (by omega : ¬ x.toNat < z.toNat), if_neg (by omega : ¬ z.toNat < x.toNat)]
        exact charListLt_trans xs ys zs hr1 hr2

theorem strLt_irrefl (a : String) : strLt a a = false := charListLt_irrefl a.data

theorem strLt_trans {a b c : String} (h1 : strLt a b = true) (h2 : strLt b c = true) :
    strLt a c = true := charListLt_trans a.data b.data c.data h1 h2

theorem pyRemovePass_length (cond : α → Bool) : ∀ l, (pyRemovePass cond l).length ≤ l.length
  | [] => by simp [pyRemovePass]
  | [x] => by by_cases h : cond x <;> simp [pyRemovePass, h]
  | x :: y :: rest => by
    by_cases h : cond x
    · have := pyRemovePass_length cond rest
      simp only [pyRemovePass, h, if_true, List.length_cons]
      omega
    · have := pyRemovePass_length cond (y :: rest)
      simp only [pyRemovePass, h, Bool.false_eq_true, if_false, List.length_cons]
      simp only [List.length_cons] at this
      omega

theorem pyRemovePass_subset (cond : α → Bool) : ∀ l x, x ∈ pyRemovePass cond l → x ∈ l
  | [], x, h => by simp [pyRemovePass] at h
  | [y], x, h => by
    by_cases hc : cond y = true
    · simp [pyRemovePass, hc] at h
    · have hc2 : cond y = false := by simpa using hc
      simp [pyRemovePass, hc2] at h
      simp [h]
  | y :: z :: rest, x, h => by
    by_cases hc : cond y = true
    · simp only [pyRemovePass, hc, if_true, List.mem_cons] at h
      rcases h with h | h
      · simp [h]
      · have := pyRemovePass_subset cond rest x h
        simp [this]
    · have hc2 : cond y = false := by simpa using hc
      simp only [pyRemovePass, hc2, Bool.false_eq_true, if_false, List.mem_cons] at h
      rcases h with h | h
      · simp [h]
      · have := pyRemovePass_subset cond (z :: rest) x h
        simp only [List.mem_cons] at this ⊢
        tauto

theorem pyRemovePass_keeps (cond : α → Bool) :
    ∀ l x, x ∈ l → cond x = false → x ∈ pyRemovePass cond l
  | [], x, hm, _ => by simp at hm
  | [y], x, hm, hc => by
    simp only [List.mem_singleton] at hm
    subst hm
    simp [pyRemovePass, hc]
  | y :: z :: rest, x, hm, hc => by
    by_cases hy : cond y = true
    · have hxy : x ≠ y := fun e => by rw [e, hy] at hc; cases hc
      simp only [pyRemovePass, hy, if_true, List.mem_cons]
      rcases List.mem_cons.mp hm with h | hm2
      · exact absurd h hxy
      · rcases List.mem_cons.mp hm2 with h | h
        · exact Or.inl h
        · exact Or.inr (pyRemovePass_keeps cond rest x h hc)
    · have hy2 : cond y = false := by simpa using hy
      simp only [pyRemovePass, hy2, Bool.false_eq_true, if_false, List.mem_cons]
      rcases List.mem_cons.mp hm with h | hm2
      · exact Or.inl h
      · exact Or.inr (pyRemovePass_keeps cond (z :: rest) x hm2 hc)

/-- Not-better transfers across a replacement of the running best. -/
theorem betterKey_exchange {z y b : EffectEntry} (hz : betterKey z b = false)
    (hy : betterKey y b = true) : betterKey z y = false := by
  by_contra hcon
  rw [Bool.not_eq_false] at hcon
  simp only [betterKey, Bool.or_eq_true, Bool.and_eq_true, decide_eq_true_eq] at hz hy hcon
  rw [Bool.or_eq_false_iff, Bool.and_eq_false_iff] at hz
  obtain ⟨hz1, hz2⟩ := hz
  rw [decide_eq_false_iff_not] at hz1
  rcases hcon with h1 | ⟨h2, h3⟩ <;> rcases hy with g1 | ⟨g2, g3⟩
  · exact hz1 (by omega)
  · exact hz1 (by omega)
  · exact hz1 (by omega)
  · rcases hz2 with hz2 | hz2
    · rw [decide_eq_false_iff_not] at hz2; exact hz2 (by omega)
    · have : strLt z.lbl b.lbl = true := strLt_trans h3 g3
      rw [hz2] at this; cases this

theorem foldBest_mem : ∀ (xs : List EffectEntry) (best : EffectEntry),
    xs.foldl (fun best y => if betterKey y best then y else best) best = best ∨
      xs.foldl (fun best y => if betterKey y best then y else best) best ∈ xs
  | [], best => Or.inl rfl
  | y :: xs, best => by
    simp only [List.foldl_cons]
    rcases foldBest_mem xs (if betterKey y best then y else best) with h | h
    · rw [h]
      by_cases hb : betterKey y best
      · simp [hb]
      · simp [hb]
    · simp [h]

theorem foldBest_notBetter : ∀ (xs : List EffectEntry) (best z : EffectEntry),
    (z ∈ xs ∨ betterKey z best = false) →
    betterKey z (xs.foldl (fun best y => if betterKey y best then y else best) best) = false
  | [], best, z, h => by
    rcases h with h | h
    · simp at h
    · simpa using h
  | y :: xs, best, z, h => by
    simp only [List.foldl_cons]
    by_cases hb : betterKey y best
    · simp only [hb, if_true]
      rcases h with h | h
      · rcases List.mem_cons.mp h with h | h
        · subst h
          exact foldBest_notBetter xs z z (Or.inr (by simp [betterKey, strLt_irrefl]))
        · exact foldBest_notBetter xs y z (Or.inl h)
      · exact foldBest_notBetter xs y z (Or.inr (betterKey_exchange h hb))
    · simp only [hb, if_false]
      rcases h with h | h
      · rcases List.mem_cons.mp h with h | h
        · subst h
          exact foldBest_notBetter xs best z (Or.inr (by simpa using hb))
        · exact foldBest_notBetter xs best z (Or.inl h)
      · exact foldBest_notBetter xs best z (Or.inr h)

theorem selectBest_mem {l : List EffectEntry} {b : EffectEntry}
    (h : selectBest l = some b) : b ∈ l := by
  match l with
  | [] => simp [selectBest] at h
  | x :: xs =>
    simp only [selectBest, Option.some.injEq] at h
    rcases foldBest_mem xs x with g | g
    · rw [h] at g; simp [g]
    · rw [h] at g; simp [g]

theorem selectBest_notBetter {l : List EffectEntry} {b : EffectEntry}
    (h : selectBest l = some b) : ∀ z ∈ l, betterKey z b = false := by
  match l with
  | [] => simp [selectBest] at h
  | x :: xs =>
    intro z hz
    simp only [selectBest, Option.some.injEq] at h
    rw [← h]
    rcases List.mem_cons.mp hz with hzx | hzx
    · subst hzx
      exact foldBest_notBetter xs z z (Or.inr (by simp [betterKey, strLt_irrefl]))
    · exact foldBest_notBetter xs x z (Or.inl hzx)

theorem fscLoop_length (o : Ontology) (subsets : List TrimmingCandidate) (value : List Int)
    (cap : Nat) (hcap : 1 ≤ cap) :
    ∀ fuel etp univ included sets r, sets.length ≤ cap →
      fscLoop o subsets value cap fuel etp univ included sets = some r → r.length ≤ cap
  | 0, etp, univ, included, sets, r, hlen, heq => by
    simp only [fscLoop, Option.some.injEq] at heq
    rw [← heq]; exact hlen
  | fuel + 1, etp, univ, included, sets, r, hlen, heq => by
    simp only [fscLoop] at heq
    split at heq
    case isFalse =>
      simp only [Option.some.injEq] at heq
      rw [← heq]; exact hlen
    case isTrue hcond =>
      split at heq
      case h_1 => cases heq
      case h_2 b hb =>
        have hlt : sets.length < cap := by
          simp only [Bool.and_eq_true, Bool.or_eq_true, beq_iff_eq, decide_eq_true_eq] at hcond
          rcases hcond.2 with h0 | h0
          · omega
          · exact h0
        refine fscLoop_length o subsets value cap hcap fuel _ _ _ _ r ?_ heq
        have := pyRemovePass_length (fun e => (o.ancestors e.1).contains b.nid) sets
        simp only [List.length_append, List.length_singleton]
        omega

theorem effectList_entry (subsets : List TrimmingCandidate) (value : List Int)
    (etp : List String) (included : Finset String) :
    ∀ e ∈ effectList subsets value etp included,
      ∃ c ∈ subsets, e.nid = c.nodeId ∧ e.cov = c.coveredStartingNodes := by
  intro e he
  cases value with
  | nil =>
    simp only [effectList, List.mem_filterMap] at he
    obtain ⟨s, hs, hsome⟩ := he
    split at hsome
    · simp only [Option.some.injEq] at hsome
      exact ⟨s, hs, by rw [← hsome], by rw [← hsome]⟩
    · cases hsome
  | cons v vs =>
    simp only [effectList, List.mem_filterMap] at he
    obtain ⟨sv, hsv, hsome⟩ := he
    split at hsome
    · simp only [Option.some.injEq] at hsome
      exact ⟨sv.1, (List.of_mem_zip hsv).1, by rw [← hsome], by rw [← hsome]⟩
    · cases hsome

theorem fscLoop_entries (o : Ontology) (subsets : List TrimmingCandidate)
    (value : List Int) (cap : Nat) :
    ∀ fuel etp univ included sets r,
      (∀ p ∈ sets, ∃ c ∈ subsets, p = (c.nodeId, c.coveredStartingNodes)) →
      fscLoop o subsets value cap fuel etp univ included sets = some r →
      ∀ p ∈ r, ∃ c ∈ subsets, p = (c.nodeId, c.coveredStartingNodes)
  | 0, etp, univ, included, sets, r, hsets, heq => by
    simp only [fscLoop, Option.some.injEq] at heq
    rw [← heq]; exact hsets
  | fuel + 1, etp, univ, included, sets, r, hsets, heq => by
    simp only [fscLoop] at heq
    split at heq
    case isFalse =>
      simp only [Option.some.injEq] at heq
      rw [← heq]; exact hsets
    case isTrue hcond =>
      split at heq
      case h_1 => cases heq
      case h_2 b hb =>
        refine fscLoop_entries o subsets value cap fuel _ _ _ _ r ?_ heq
        intro p hp
        rcases List.mem_append.mp hp with hp | hp
        · exact hsets p (pyRemovePass_subset _ sets p hp)
        · simp only [List.mem_singleton] at hp
          obtain ⟨c, hc, hnid, hcov⟩ := effectList_entry subsets value etp included b
            (selectBest_mem hb)
          refine ⟨c, hc, ?_⟩
          rw [hp, Prod.mk.injEq]
          exact ⟨hnid, hcov⟩

theorem findSetCovering_length {o : Ontology} {subsets : List TrimmingCandidate}
    {value : List Int} {cap : Nat} {r : List (String × Finset String)} (hcap : 1 ≤ cap)
    (h : findSetCovering o subsets value cap = some r) : r.length ≤ cap := by
  simp only [findSetCovering] at h
  split at h
  · cases h
  · exact fscLoop_length o subsets value cap hcap _ _ _ _ [] r (by simp) h

theorem findSetCovering_entries {o : Ontology} {subsets : List TrimmingCandidate}
    {value : List Int} {cap : Nat} {r : List (String × Finset String)}
    (h : findSetCovering o subsets value cap = some r) :
    ∀ p ∈ r, ∃ c ∈ subsets, p = (c.nodeId, c.coveredStartingNodes) := by
  simp only [findSetCovering] at h
  split at h
  · cases h
  · exact fscLoop_entries o subsets value cap _ _ _ _ [] r (by simp) h

theorem getAllTrimmingCandidates_covered {o : Ontology} {ids : List String}
    {minDist : Nat} {bl : List String} {cands : List TrimmingCandidate}
    (h : getAllTrimmingCandidates o ids minDist bl = .ok cands) :
    ∀ c ∈ cands, ∀ n ∈ c.coveredStartingNodes,
      n ∈ ids ∧ (n = c.nodeId ∨ c.nodeId ∈ o.ancestors n) := by
  simp only [getAllTrimmingCandidates] at h
  split at h
  · cases h
  · rw [Except.ok.injEq] at h
    subst h
    intro c hc n hn
    rw [List.mem_filterMap] at hc
    obtain ⟨a, ha, hsome⟩ := hc
    split at hsome
    · rw [Option.some.injEq] at hsome
      rw [← hsome] at hn ⊢
      simp only [List.mem_toFinset, List.mem_filter] at hn
      obtain ⟨hnids, hcont⟩ := hn
      refine ⟨hnids, ?_⟩
      have : a ∈ o.ancestorsRefl n := by
        simpa using hcont
      simp only [Ontology.ancestorsRefl, List.mem_cons] at this
      rcases this with h2 | h2
      · exact Or.inl h2.symm
      · exact Or.inr h2
    · cases hsome

/-!  Claim theorems. -/

/-- C10: for every call to the Set-Covering Solver with a non-empty weight
list whose length differs from the number of distinct candidate ids in the
subsets list, the solver returns `none` instead of a selection. -/
theorem c10_weight_mismatch_none (o : Ontology) (subsets : List TrimmingCandidate)
    (value : List Int) (cap : Nat) (hvne : value ≠ [])
    (hlen : value.length ≠ (firstDedup (subsets.map (·.nodeId))).length) :
    findSetCovering o subsets value cap = none := by
  have hcond : (!value.isEmpty &&
      value.length != (firstDedup (subsets.map (·.nodeId))).length) = true := by
    simp [List.isEmpty_iff, hvne, hlen]
  simp only [findSetCovering, hcond, if_true]

/-- C10 witness: a weight list correctly parallel to a subsets list that
contains a duplicate candidate id (two entries, one distinct id) yields
`none`. -/
theorem c10_witness :
    ([1, 1] : List Int) ≠ [] ∧
    ([1, 1] : List Int).length ≠
      (firstDedup (([⟨"A", "A", {"x"}⟩, ⟨"A", "A", {"y"}⟩] :
        List TrimmingCandidate).map (·.nodeId))).length ∧
    findSetCovering ont1 [⟨"A", "A", {"x"}⟩, ⟨"A", "A", {"y"}⟩] [1, 1] 3 = none :=
  ⟨by decide, by decide,
    c10_weight_mismatch_none ont1 [⟨"A", "A", {"x"}⟩, ⟨"A", "A", {"y"}⟩] [1, 1] 3
      (by decide) (by decide)⟩

/-- C8: the postfix merge of "located in the X/Y/Z" extracts the common
prefix character-by-character, extracts the (here empty, single-"word")
common suffix, pluralizes it through the inflect collaborator, and joins the
distinguishing fragments Oxford-comma style, giving exactly
"located in the X, Y, and Zs". -/
theorem c8_postfix_merge (plural : String → String) (hp : plural ("") = "s") :
    mergePostfixPhrases plural
      ["located in the X", "located in the Y", "located in the Z"] =
      "located in the X, Y, and Zs" := by
  have h : mergePostfixPhrases plural
      ["located in the X", "located in the Y", "located in the Z"] =
      "located in the X, Y, and Z" ++ plural ("") := rfl
  rw [h, hp]
  decide

/-- C8 witness: with a concrete pluralizer sending the empty suffix to "s",
the merge yields the fixture string. -/
theorem c8_witness :
    (fun s => s ++ "s") ("") = "s" ∧
    mergePostfixPhrases (fun s => s ++ "s")
      ["located in the X", "located in the Y", "located in the Z"] =
      "located in the X, Y, and Zs" :=
  ⟨by decide, c8_postfix_merge (fun s => s ++ "s") (by decide)⟩

/-- C2 (amended): when the metadata root lookup is falsy (mixed roots, or no
namespace found), the IC and LCA trims fail with the fatal error raised by
the shared candidate retrieval — but the Naive trim performs no such check
and proceeds (see the counterexample). -/
theorem c2_ic_lca_reject (o : Ontology) (minDist : Nat) (bl : List String) (bonus : Int)
    (slim : List String) (ids : List String) (cap : Nat)
    (hroot : rootFalsy (nodesHaveSameRoot o ids) = true) :
    (∃ e, icTrim o minDist bl bonus slim ids cap = .error e) ∧
    (∃ e, lcaTrim o minDist bl ids cap = .error e) := by
  have hg : ∀ md bl2, getAllTrimmingCandidates o ids md bl2 =
      .error "Cannot get common ancestors of nodes connected to different roots" := by
    intro md bl2
    simp [getAllTrimmingCandidates, hroot]
  have h1 : icTrim o minDist bl bonus slim ids cap =
      .error "Cannot get common ancestors of nodes connected to different roots" := by
    simp [icTrim, hg, Bind.bind, Except.bind]
  have h2 : lcaTrim o minDist bl ids cap =
      .error "Cannot get common ancestors of nodes connected to different roots" := by
    simp [lcaTrim, hg, Bind.bind, Except.bind]
  exact ⟨⟨_, h1⟩, ⟨_, h2⟩⟩

/-- C2 counterexample: a two-term input spanning the two distinct root
namespaces nsa and nsb.  The metadata check reports the mismatch, yet the
Naive trim neither raises nor fails — it returns a normal result covering
each term within its own namespace.  The claim that all three strategies
verify the precondition and fail is false for the Naive algorithm. -/
theorem c2_naive_counterexample :
    rootFalsy (nodesHaveSameRoot ontM ["t1", "t2"]) = true ∧
    naiveTrim ontM 0 [] ["t1", "t2"] 3 = (false, [("t1", {"t1"}), ("t2", {"t2"})]) :=
  ⟨by decide, by decide⟩

/-- C2 witness: the amended rejection theorem applied at the mixed-root
fixture. -/
theorem c2_witness :
    rootFalsy (nodesHaveSameRoot ontM ["t1", "t2"]) = true ∧
    ((∃ e, icTrim ontM 3 [] 0 [] ["t1", "t2"] 3 = .error e) ∧
     (∃ e, lcaTrim ontM 3 [] ["t1", "t2"] 3 = .error e)) :=
  ⟨by decide, c2_ic_lca_reject ontM 3 [] 0 [] ["t1", "t2"] 3 (by decide)⟩

/-- C3 counterexample: with weights `[10, 10, 1]` over candidates d1 `{x}`,
d2 `{y}` and their common strict ancestor a `{x, y, z}` (node ids n1, n2,
n3), the solver selects n1, then n2, then n3; the removal pass removes the
descendant n1 of the newly selected ancestor n3 and — because removal shifts
the iteration — never examines n2.  The returned list contains n2 together
with its strict ancestor n3, falsifying both the claimed removal direction
(ancestors of the new candidate are never the ones removed) and the claimed
consequent that no ancestor-descendant pair is ever returned. -/
theorem c3_counterexample :
    findSetCovering ont3 subs3 [10, 10, 1] 0 =
      some [("n2", {"y"}), ("n3", {"x", "y", "z"})] ∧
    "n3" ∈ ont3.ancestors "n2" ∧ "n3" ≠ "n2" :=
  ⟨by decide, by decide, by decide⟩

/-- C3 (amended): after each greedy selection the redundancy pass can remove
only previously selected candidates that are strict DESCENDANTS of the newly
selected candidate (those having it among their ancestors); every previously
selected entry that does not have the new candidate among its ancestors — in
particular every strict ancestor of it — survives the pass.  Because a
removal skips the entry that slides into the removed position, the solver
may still return a pair where one candidate is a strict ancestor of the
other (see the counterexample). -/
theorem c3_removal_direction (o : Ontology) (newId : String)
    (sets : List (String × Finset String)) (e : String × Finset String)
    (hmem : e ∈ sets) (hnotdesc : (o.ancestors e.1).contains newId = false) :
    e ∈ pyRemovePass (fun p => (o.ancestors p.1).contains newId) sets :=
  pyRemovePass_keeps _ sets e hmem hnotdesc

/-- C3 witness: the non-descendant entry n1 survives a removal pass driven
by the newly selected n2. -/
theorem c3_witness :
    (("n1", ({"x"} : Finset String)) ∈ [("n1", ({"x"} : Finset String))]) ∧
    (ont3.ancestors "n1").contains "n2" = false ∧
    ("n1", ({"x"} : Finset String)) ∈
      pyRemovePass (fun p => (ont3.ancestors p.1).contains "n2")
        [("n1", ({"x"} : Finset String))] :=
  ⟨by decide, by decide,
    c3_removal_direction ont3 "n2" [("n1", {"x"})] ("n1", {"x"}) (by decide) (by decide)⟩

/-- C5: at every iteration of the Set-Covering Solver, the selected entry of
the effect list (built by `effectList`: marginal coverage — the candidate's
covered set minus the already-included elements — multiplied by the parallel
weight when a non-empty weight list is given) is a member of the list with
maximal score, and among entries of equal score its label is
lexicographically minimal. -/
theorem c5_greedy_selection (subsets : List TrimmingCandidate) (value : List Int)
    (etp : List String) (included : Finset String) (b : EffectEntry)
    (hsel : selectBest (effectList subsets value etp included) = some b) :
    b ∈ effectList subsets value etp included ∧
    ∀ z ∈ effectList subsets value etp included,
      z.score < b.score ∨ (z.score = b.score ∧ strLt z.lbl b.lbl = false) := by
  refine ⟨selectBest_mem hsel, ?_⟩
  intro z hz
  have h := selectBest_notBetter hsel z hz
  simp only [betterKey, Bool.or_eq_false_iff, Bool.and_eq_false_iff] at h
  obtain ⟨h1, h2⟩ := h
  rw [decide_eq_false_iff_not] at h1
  rcases lt_trichotomy z.score b.score with hlt | heq | hgt
  · exact Or.inl hlt
  · refine Or.inr ⟨heq, ?_⟩
    rcases h2 with h2 | h2
    · rw [decide_eq_false_iff_not] at h2
      exact absurd heq h2
    · exact h2
  · exact absurd hgt h1

/-- C5 witness: the weighted selection over the three-candidate fixture
picks the leftmost of the two maximal-score entries (score 10, label d1). -/
theorem c5_witness :
    selectBest (effectList subs3 [10, 10, 1] ["n1", "n2", "n3"] ∅) =
      some ⟨10, {"x"}, "d1", "n1"⟩ ∧
    (⟨10, {"x"}, "d1", "n1"⟩ : EffectEntry) ∈
      effectList subs3 [10, 10, 1] ["n1", "n2", "n3"] ∅ ∧
    ∀ z ∈ effectList subs3 [10, 10, 1] ["n1", "n2", "n3"] ∅,
      z.score < (⟨10, {"x"}, "d1", "n1"⟩ : EffectEntry).score ∨
      (z.score = (⟨10, {"x"}, "d1", "n1"⟩ : EffectEntry).score ∧
        strLt z.lbl (⟨10, {"x"}, "d1", "n1"⟩ : EffectEntry).lbl = false) :=
  ⟨by decide,
    (c5_greedy_selection subs3 [10, 10, 1] ["n1", "n2", "n3"] ∅ _ (by decide)).1,
    (c5_greedy_selection subs3 [10, 10, 1] ["n1", "n2", "n3"] ∅ _ (by decide)).2⟩

/-- C1 counterexample: IC trimming of the two disjoint same-namespace leaves
A and B with a cap of 1 selects only A; the input term B is neither among
the returned ids nor a descendant of any returned term, so the claimed
universal coverage fails (the call signals this through its first returned
component instead). -/
theorem c1_counterexample :
    icTrim ont1 3 [] 0 [] ["A", "B"] 1 = .ok (true, [("A", {"A"})]) ∧
    "B" ∈ (["A", "B"] : List String) ∧
    ¬ ("B" = "A" ∨ "A" ∈ ont1.ancestors "B") :=
  ⟨by decide, by decide, by decide⟩

/-- C1 (amended): for IC trimming calls that return, every term in any
returned covered-set is an original input term and is the returned term
itself or one of its descendants, and the first returned component is
`false` exactly when the union of the returned covered-sets equals the whole
input set — under-coverage (for instance when the cap bites, as in the
counterexample) is signalled through that flag rather than prevented. -/
theorem c1_ic_coverage (o : Ontology) (minDist : Nat) (bl : List String) (bonus : Int)
    (slim : List String) (ids : List String) (cap : Nat) (flag : Bool)
    (best : List (String × Finset String))
    (h : icTrim o minDist bl bonus slim ids cap = .ok (flag, best)) :
    (flag = false ↔ unionCov best = ids.toFinset) ∧
    ∀ p ∈ best, ∀ n ∈ p.2, n ∈ ids ∧ (n = p.1 ∨ p.1 ∈ o.ancestors n) := by
  cases hg : getAllTrimmingCandidates o ids 0 bl with
  | error e => simp [icTrim, hg, Bind.bind, Except.bind] at h
  | ok cands =>
    simp only [icTrim, hg, Bind.bind, Except.bind] at h
    set pairs := (cands.zip (cands.map
      (getCandidateICValue o minDist bonus slim ids))).filter
      (fun p => decide (0 < p.2)) with hpairs
    cases hf : findSetCovering o (pairs.map (·.1)) (pairs.map (·.2)) cap with
    | none => rw [hf] at h; cases h
    | some best2 =>
      rw [hf] at h
      rw [Except.ok.injEq, Prod.mk.injEq] at h
      obtain ⟨hflag, hbest⟩ := h
      subst hbest
      constructor
      · rw [← hflag]
        simp
      · intro p hp n hn
        obtain ⟨c, hcmem, hpc⟩ := findSetCovering_entries hf p hp
        have hc2 : c ∈ cands := by
          rw [List.mem_map] at hcmem
          obtain ⟨pr, hpr, hpr1⟩ := hcmem
          rw [hpairs, List.mem_filter] at hpr
          have := (List.of_mem_zip hpr.1).1
          rw [← hpr1]; exact this
        have := getAllTrimmingCandidates_covered hg c hc2 n (by rw [hpc] at hn; exact hn)
        rw [hpc]
        exact this

/-- C1 witness: the amended coverage theorem applied to the capped fixture
call. -/
theorem c1_witness :
    icTrim ont1 3 [] 0 [] ["A", "B"] 1 = .ok (true, [("A", {"A"})]) ∧
    ((true = false ↔ unionCov [("A", {"A"})] = (["A", "B"] : List String).toFinset) ∧
     ∀ p ∈ [("A", ({"A"} : Finset String))], ∀ n ∈ p.2,
       n ∈ (["A", "B"] : List String) ∧ (n = p.1 ∨ p.1 ∈ ont1.ancestors n)) :=
  ⟨by decide, c1_ic_coverage ont1 3 [] 0 [] ["A", "B"] 1 true [("A", {"A"})] (by decide)⟩

/-- C4 counterexample: a configured maximum of 0 is falsy in Python, so the
Set-Covering Solver runs uncapped and the IC trim of the two-leaf fixture
returns two terms, exceeding the configured maximum 0. -/
theorem c4_cap_zero_counterexample :
    icTrim ont1 3 [] 0 [] ["A", "B"] 0 = .ok (false, [("A", {"A"}), ("B", {"B"})]) ∧
    ¬ ([("A", ({"A"} : Finset String)), ("B", ({"B"} : Finset String))].length ≤ 0) :=
  ⟨by decide, by decide⟩

/-- C4 (amended): with a POSITIVE configured maximum term count, the
Set-Covering Solver stops when the cap is reached and each trim method (IC,
LCA with direct return or fallback, Naive with direct return or fallback)
returns at most that many terms; the pipeline's final truncation bounds its
result by its own maximum unconditionally.  (A maximum of 0 is Python-falsy
and disables the solver's cap: see the counterexample.) -/
theorem c4_cap_respected (o : Ontology) (minDist : Nat) (bl : List String) (bonus : Int)
    (slim ids : List String) (cap : Nat)
    (gbn : List String → Nat → List String × Bool) (maxTerms : Nat) (addMul : Bool)
    (terms hp : List String) (hcap : 1 ≤ cap) :
    (∀ subsets value r, findSetCovering o subsets value cap = some r → r.length ≤ cap) ∧
    (∀ flag best, icTrim o minDist bl bonus slim ids cap = .ok (flag, best) →
      best.length ≤ cap) ∧
    (∀ flag best, lcaTrim o minDist bl ids cap = .ok (flag, best) → best.length ≤ cap) ∧
    (naiveTrim o minDist bl ids cap).2.length ≤ cap ∧
    (getTrimmedTermsByCommonAncestor o gbn maxTerms addMul terms hp).1.length ≤ maxTerms := by
  refine ⟨fun subsets value r h => findSetCovering_length hcap h, ?_, ?_, ?_, ?_⟩
  · intro flag best h
    cases hg : getAllTrimmingCandidates o ids 0 bl with
    | error e => simp [icTrim, hg, Bind.bind, Except.bind] at h
    | ok cands =>
      simp only [icTrim, hg, Bind.bind, Except.bind] at h
      set pairs := (cands.zip (cands.map
        (getCandidateICValue o minDist bonus slim ids))).filter
        (fun p => decide (0 < p.2)) with hpairs
      cases hf : findSetCovering o (pairs.map (·.1)) (pairs.map (·.2)) cap with
      | none => rw [hf] at h; cases h
      | some best2 =>
        rw [hf] at h
        rw [Except.ok.injEq, Prod.mk.injEq] at h
        rw [← h.2]
        exact findSetCovering_length hcap hf
  · intro flag best h
    cases hg : getAllTrimmingCandidates o ids minDist bl with
    | error e => simp [lcaTrim, hg, Bind.bind, Except.bind] at h
    | ok cands =>
      simp only [lcaTrim, hg, Bind.bind, Except.bind] at h
      set cd := cands.map (fun c => (c.nodeId, c.nodeLabel, c.coveredStartingNodes))
        with hcd
      set selected := lcaLoop o cd cd.length (cd.map (·.1)) [] with hselected
      split at h
      case isTrue hle =>
        rw [Except.ok.injEq, Prod.mk.injEq] at h
        rw [← h.2]
        simpa using hle
      case isFalse hgt =>
        cases hf : findSetCovering o
            (selected.map (fun i => ⟨i, o.labelD i, covD cd i⟩)) [] cap with
        | none => rw [hf] at h; cases h
        | some best2 =>
          rw [hf] at h
          rw [Except.ok.injEq, Prod.mk.injEq] at h
          rw [← h.2]
          exact findSetCovering_length hcap hf
  · simp only [naiveTrim]
    split
    case isTrue hle => simpa using hle
    case isFalse hgt =>
      split
      case h_1 => simp
      case h_2 best2 hf => exact findSetCovering_length hcap hf
  · simp only [getTrimmedTermsByCommonAncestor]
    exact List.length_take_le maxTerms _

/-- C4 witness: the amended cap theorem applied at cap 1 over the two-leaf
fixture with a truncating stand-in for the external trimming dispatcher. -/
theorem c4_witness :
    1 ≤ 1 ∧
    ((∀ subsets value r, findSetCovering ont1 subsets value 1 = some r → r.length ≤ 1) ∧
     (∀ flag best, icTrim ont1 3 [] 0 [] ["A", "B"] 1 = .ok (flag, best) →
       best.length ≤ 1) ∧
     (∀ flag best, lcaTrim ont1 3 [] ["A", "B"] 1 = .ok (flag, best) →
       best.length ≤ 1) ∧
     (naiveTrim ont1 3 [] ["A", "B"] 1).2.length ≤ 1 ∧
     (getTrimmedTermsByCommonAncestor ont1 (fun ts c => (ts.take c, false)) 1 false
       ["A", "B"] ["A"]).1.length ≤ 1) :=
  ⟨by decide, c4_cap_respected ont1 3 [] 0 [] ["A", "B"] 1
    (fun ts c => (ts.take c, false)) 1 false ["A", "B"] ["A"] (by decide)⟩

theorem mem_sortByLenIns : ∀ (l : List (List String)) (p a : List String),
    a ∈ sortByLenIns p l ↔ a = p ∨ a ∈ l
  | [], p, a => by simp [sortByLenIns]
  | q :: rest, p, a => by
    simp only [sortByLenIns]
    split
    · simp [List.mem_cons]
    · simp only [List.mem_cons, mem_sortByLenIns rest p a]
      tauto

theorem mem_sortByLen : ∀ (l : List (List String)) (a : List String),
    a ∈ sortByLen l ↔ a ∈ l
  | [], a => by simp [sortByLen]
  | x :: rest, a => by
    simp only [sortByLen, List.foldr_cons]
    rw [show List.foldr sortByLenIns [] rest = sortByLen rest from rfl]
    rw [mem_sortByLenIns, mem_sortByLen rest a]
    simp

theorem sortByLenIns_ne_nil (p : List String) : ∀ l, sortByLenIns p l ≠ []
  | [] => by simp [sortByLenIns]
  | q :: rest => by
    simp only [sortByLenIns]
    split <;> simp

/-- The last element of an ascending length-insertion is a member of
maximal length. -/
theorem lastMax_sortByLenIns : ∀ (l : List (List String)) (p : List String),
    (l = [] ∨ ∃ m, l.getLast? = some m ∧ ∀ q ∈ l, q.length ≤ m.length) →
    ∃ m, (sortByLenIns p l).getLast? = some m ∧
      ∀ q ∈ sortByLenIns p l, q.length ≤ m.length
  | [], p, _ =>
    ⟨p, by simp [sortByLenIns], by
      intro a ha
      simp only [sortByLenIns, List.mem_singleton] at ha
      simp [ha]⟩
  | q :: rest, p, h => by
    rcases h with h | ⟨m, hlast, hmax⟩
    · cases h
    simp only [sortByLenIns]
    split
    case isTrue hlt =>
      refine ⟨m, ?_, ?_⟩
      · rw [List.getLast?_cons_cons]
        exact hlast
      · intro a ha
        rcases List.mem_cons.mp ha with ha | ha
        · subst ha
          have hq := hmax q (by simp)
          omega
        · exact hmax a ha
    case isFalse hge =>
      cases rest with
      | nil =>
        refine ⟨p, by simp [sortByLenIns], ?_⟩
        intro a ha
        simp only [sortByLenIns, List.mem_cons] at ha
        rcases ha with ha | ha | ha
        · subst ha
          simp only [List.getLast?_singleton, Option.some.injEq] at hlast
          omega
        · subst ha; omega
        · cases ha
      | cons r rs =>
        have hrest : ∃ m2, (r :: rs).getLast? = some m2 ∧
            ∀ q2 ∈ r :: rs, q2.length ≤ m2.length := by
          refine ⟨m, ?_, ?_⟩
          · rw [List.getLast?_cons_cons] at hlast
            exact hlast
          · intro q2 hq2
            exact hmax q2 (by simp [hq2])
        obtain ⟨m2, hlast2, hmax2⟩ := lastMax_sortByLenIns (r :: rs) p (Or.inr hrest)
        refine ⟨m2, ?_, ?_⟩
        · cases hins : sortByLenIns p (r :: rs) with
          | nil => exact absurd hins (sortByLenIns_ne_nil p (r :: rs))
          | cons i is =>
            rw [hins] at hlast2
            rw [List.getLast?_cons_cons]
            exact hlast2
        · intro a ha
          rcases List.mem_cons.mp ha with ha | ha
          · subst ha
            have hp : p.length ≤ m2.length := by
              refine hmax2 p ?_
              rw [mem_sortByLenIns]
              exact Or.inl rfl
            omega
          · exact hmax2 a ha

/-- C6 counterexample: on the fixture where t1 has a short path through a
and a longer path through b-c while t2 reaches only c, the embedded source
algorithm (which pops the LAST element of the ascending length-sorted path
list, i.e. a longest path) produces a different result from the
spec-modelled variant that takes the shortest remaining path first: the
returned lists differ. -/
theorem c6_counterexample :
    naiveTrim ontN 0 [] ["t1", "t2"] 3 =
      (false, [("c", {"t1", "t2"}), ("t1", {"t1"})]) ∧
    naiveTrimSpecShortest ontN 0 [] ["t1", "t2"] 3 =
      (false, [("t1", {"t1"}), ("c", {"t1", "t2"})]) ∧
    naiveTrim ontN 0 [] ["t1", "t2"] 3 ≠ naiveTrimSpecShortest ontN 0 [] ["t1", "t2"] 3 :=
  ⟨by decide, by decide, by decide⟩

/-- C6 (amended): the Naive path-merge does process the input terms in
deterministic sorted order, but for the current term the first path taken
for merging is the popped LAST element of the ascending length-sorted path
list — a path of MAXIMAL length among the term's remaining paths, not the
shortest (`naiveNode` walks `(sortByLen paths).getLast?`); the walk outward
from the term toward its root is otherwise as described. -/
theorem c6_first_path_longest (l : List (List String)) (hne : l ≠ []) :
    ∃ p, (sortByLen l).getLast? = some p ∧ p ∈ l ∧ ∀ q ∈ l, q.length ≤ p.length := by
  have key : ∀ (l2 : List (List String)), l2 = [] ∨
      ∃ m, (sortByLen l2).getLast? = some m ∧
        ∀ q ∈ sortByLen l2, q.length ≤ m.length := by
    intro l2
    induction l2 with
    | nil => exact Or.inl rfl
    | cons x rest ih =>
      refine Or.inr ?_
      have hx : sortByLen (x :: rest) = sortByLenIns x (sortByLen rest) := rfl
      rw [hx]
      apply lastMax_sortByLenIns
      rcases ih with h | ⟨m, hlast, hmax⟩
      · rw [h]
        exact Or.inl rfl
      · exact Or.inr ⟨m, hlast, hmax⟩
  rcases key l with h | ⟨m, hlast, hmax⟩
  · exact absurd h hne
  · refine ⟨m, hlast, ?_, ?_⟩
    · rw [← mem_sortByLen]
      obtain ⟨hne2, heq⟩ := List.mem_getLast?_eq_getLast (by rw [Option.mem_def]; exact hlast)
      rw [heq]
      exact List.getLast_mem hne2
    · intro q hq
      exact hmax q (by rw [mem_sortByLen]; exact hq)

/-- C6 witness: on t1's two fixture paths the first processed path is the
length-3 one. -/
theorem c6_witness :
    ([["t1", "a"], ["t1", "b", "c"]] : List (List String)) ≠ [] ∧
    ∃ p, (sortByLen [["t1", "a"], ["t1", "b", "c"]]).getLast? = some p ∧
      p ∈ ([["t1", "a"], ["t1", "b", "c"]] : List (List String)) ∧
      ∀ q ∈ ([["t1", "a"], ["t1", "b", "c"]] : List (List String)),
        q.length ≤ p.length :=
  ⟨by decide, c6_first_path_longest [["t1", "a"], ["t1", "b", "c"]] (by decide)⟩

theorem mem_firstDedupAux [DecidableEq α] :
    ∀ (seen l : List α) (x : α), x ∈ firstDedupAux seen l → x ∈ l
  | _, [], x, h => by simp [firstDedupAux] at h
  | seen, y :: rest, x, h => by
    simp only [firstDedupAux] at h
    split at h
    · exact List.mem_cons_of_mem y (mem_firstDedupAux seen rest x h)
    · rcases List.mem_cons.mp h with h2 | h2
      · simp [h2]
      · exact List.mem_cons_of_mem y (mem_firstDedupAux (y :: seen) rest x h2)

theorem mem_firstDedup [DecidableEq α] {l : List α} {x : α}
    (h : x ∈ firstDedup l) : x ∈ l :=
  mem_firstDedupAux [] l x h

/-- C7: when the high-priority terms present in the input do not exceed the
cap on their own but the whole term set does, the Term Reduction Pipeline
returns all high-priority terms untrimmed — they form a prefix of the
result, in input order — while every other returned term comes from the
configured Trimming Algorithm (`gbn`) applied to the low-priority pool with
the remaining budget `maxTerms - |highPriority|`, and the result respects
the cap. -/
theorem c7_high_priority (o : Ontology)
    (gbn : List String → Nat → List String × Bool) (maxTerms : Nat) (addMul : Bool)
    (terms hp : List String) (hpne : hp ≠ [])
    (hlen : (terms.filter (fun t => hp.contains t)).length ≤ maxTerms)
    (hover : maxTerms < (terms.filter (fun t => hp.contains t)).length +
      (terms.filter (fun t => !hp.contains t)).length) :
    (terms.filter (fun t => hp.contains t)) <+:
      (getTrimmedTermsByCommonAncestor o gbn maxTerms addMul terms hp).1 ∧
    (∀ t ∈ (getTrimmedTermsByCommonAncestor o gbn maxTerms addMul terms hp).1,
      t ∈ terms.filter (fun t => hp.contains t) ∨
      t ∈ (gbn (terms.filter (fun t => !hp.contains t))
        (maxTerms - (terms.filter (fun t => hp.contains t)).length)).1) ∧
    (getTrimmedTermsByCommonAncestor o gbn maxTerms addMul terms hp).1.length ≤ maxTerms := by
  have hemp : hp.isEmpty = false := by
    cases hp with
    | nil => exact absurd rfl hpne
    | cons a l => rfl
  set hpT := terms.filter (fun t => hp.contains t) with hhpT
  set low := terms.filter (fun t => !hp.contains t) with hlow
  have hnotgt : ¬ hpT.length > maxTerms := by omega
  have hunfold : (getTrimmedTermsByCommonAncestor o gbn maxTerms addMul terms hp).1 =
      (hpT ++ firstDedup
        ((if 0 < (maxTerms : Int) - (hpT.length : Int) ∧
            (maxTerms : Int) - (hpT.length : Int) < (low.length : Int) then
            gbn low ((maxTerms : Int) - (hpT.length : Int)).toNat
          else (low, decide ((maxTerms : Int) - (hpT.length : Int) ≤ 0 ∧
            0 < low.length))).1.filter (fun t => !hpT.contains t))).take maxTerms := by
    simp only [getTrimmedTermsByCommonAncestor, hemp, Bool.false_eq_true, if_false,
      if_neg hnotgt, ← hhpT, ← hlow]
  by_cases hfull : hpT.length = maxTerms
  · -- the high-priority terms fill the cap exactly; the truncation cuts all
    -- low-priority terms
    have hcond : ¬ (0 < (maxTerms : Int) - hpT.length ∧
        (maxTerms : Int) - hpT.length < (low.length : Int)) := by
      rw [hfull]; simp
    rw [hunfold, if_neg hcond]
    have htake : (hpT ++ firstDedup ((low.filter (fun t => !hpT.contains t)))).take maxTerms
        = hpT := by
      rw [← hfull]
      exact List.take_left hpT _
    rw [htake]
    exact ⟨List.prefix_refl hpT, fun t ht => Or.inl ht, by omega⟩
  · -- strictly fewer high-priority terms than the cap: the low pool is
    -- trimmed with the remaining budget
    have hlt : hpT.length < maxTerms := by omega
    have hcond : 0 < (maxTerms : Int) - hpT.length ∧
        (maxTerms : Int) - hpT.length < (low.length : Int) := by
      constructor <;> [omega; omega]
    have htonat : ((maxTerms : Int) - hpT.length).toNat = maxTerms - hpT.length := by
      omega
    rw [hunfold, if_pos hcond, htonat]
    set D := firstDedup ((gbn low (maxTerms - hpT.length)).1.filter
      (fun t => !hpT.contains t)) with hD
    have hsplit : (hpT ++ D).take maxTerms = hpT ++ D.take (maxTerms - hpT.length) := by
      rw [List.take_append_eq_append_take, List.take_of_length_le (by omega)]
    rw [hsplit]
    refine ⟨⟨_, rfl⟩, ?_, ?_⟩
    · intro t ht
      rcases List.mem_append.mp ht with ht | ht
      · exact Or.inl ht
      · have := mem_firstDedup (List.mem_of_mem_take (hD ▸ ht))
        exact Or.inr (List.mem_of_mem_filter this)
    · rw [← hsplit]
      exact List.length_take_le maxTerms _

/-- C7 witness: cap 2, one high-priority term, two low-priority terms; with
a truncating stand-in for the external trimming dispatcher the
high-priority term A heads the result and the rest comes from the trimmed
low pool. -/
theorem c7_witness :
    (["A"] : List String) ≠ [] ∧
    ((["A", "B", "C"].filter (fun t => (["A"] : List String).contains t)).length ≤ 2) ∧
    (2 < (["A", "B", "C"].filter (fun t => (["A"] : List String).contains t)).length +
      (["A", "B", "C"].filter (fun t => !(["A"] : List String).contains t)).length) ∧
    ((["A", "B", "C"].filter (fun t => (["A"] : List String).contains t)) <+:
      (getTrimmedTermsByCommonAncestor ont1 (fun ts c => (ts.take c, true)) 2 false
        ["A", "B", "C"] ["A"]).1 ∧
     (∀ t ∈ (getTrimmedTermsByCommonAncestor ont1 (fun ts c => (ts.take c, true)) 2 false
         ["A", "B", "C"] ["A"]).1,
       t ∈ ["A", "B", "C"].filter (fun t => (["A"] : List String).contains t) ∨
       t ∈ ((fun (ts : List String) (c : Nat) => (ts.take c, true))
         (["A", "B", "C"].filter (fun t => !(["A"] : List String).contains t))
         (2 - (["A", "B", "C"].filter
           (fun t => (["A"] : List String).contains t)).length)).1) ∧
     (getTrimmedTermsByCommonAncestor ont1 (fun ts c => (ts.take c, true)) 2 false
       ["A", "B", "C"] ["A"]).1.length ≤ 2) := by
  refine ⟨by decide, by decide, by decide, ?_⟩
  exact c7_high_priority ont1 (fun ts c => (ts.take c, true)) 2 false
    ["A", "B", "C"] ["A"] (by decide) (by decide) (by decide)

theorem foldAddSet_fresh : ∀ (ts acc : List String), (∀ t ∈ ts, t ∉ acc) → ts.Nodup →
    ts.foldl (fun acc t => if t ∈ acc then acc else acc ++ [t]) acc = acc ++ ts
  | [], acc, _, _ => by simp
  | t :: rest, acc, hfresh, hnd => by
    simp only [List.foldl_cons]
    rw [if_neg (hfresh t (by simp))]
    rw [foldAddSet_fresh rest (acc ++ [t]) ?_ (List.Nodup.of_cons hnd)]
    · simp
    · intro r hr
      simp only [List.mem_append, List.mem_singleton]
      rintro (h | h)
      · exact hfresh r (by simp [hr]) h
      · subst h
        exact (List.nodup_cons.mp hnd).1 hr

theorem foldAddSet_stale : ∀ (ts acc : List String), (∀ t ∈ ts, t ∈ acc) →
    ts.foldl (fun acc t => if t ∈ acc then acc else acc ++ [t]) acc = acc
  | [], acc, _ => by simp
  | t :: rest, acc, hall => by
    simp only [List.foldl_cons]
    rw [if_pos (hall t (by simp))]
    exact foldAddSet_stale rest acc (fun r hr => hall r (by simp [hr]))

/-- C9 counterexample: merging the sentence "Prefix T in the cell" with
itself duplicates the configured postfix — the merged text is
"Prefix T in the cell and in the cell", not the sentence's own text.  (The
postfix list becomes [p, p]; the common prefix AND the common suffix of two
identical phrases are the whole phrase, both distinguishing fragments
become empty, and the 2-fragment join glues p, " and " and p together.) -/
theorem c9_counterexample :
    sC.text = "Prefix T in the cell" ∧
    (mergeSentencesWithSamePfx ⟨[]⟩ pmapC (fun s => s ++ "s") false [] [sC, sC]).map
      (·.text) = ["Prefix T in the cell and in the cell"] ∧
    "Prefix T in the cell and in the cell" ≠ sC.text :=
  ⟨by decide, by decide, by decide⟩

/-- C9 (amended): merging a sentence with itself (two identical sentences
sharing the same prefix) yields the sentence's own text unchanged WHEN the
configured postfix for the sentence's key is empty (then the duplicated
postfix list merges back to the empty postfix); with a non-empty postfix
the text changes because the postfix is glued to itself (see the
counterexample).  Stated for the parent-removal pass disabled and a
duplicate-free term list, and against the spec-modelled sentence
composition. -/
theorem c9_merge_empty_postfix (o : Ontology)
    (pmap : String × String × String → String × String) (plural : String → String)
    (s : GDSentence)
    (hpofx : (pmap (s.aspect, s.evidenceGroup, s.qualifier)).2 = "")
    (hne : s.termsIds ≠ []) (hnd : s.termsIds.Nodup)
    (htext : s.text = composeSentence (pmap (s.aspect, s.evidenceGroup, s.qualifier)).1
      s.addlPfx (s.termsIds.map o.labelD)
      (pmap (s.aspect, s.evidenceGroup, s.qualifier)).2) :
    (mergeSentencesWithSamePfx o pmap plural false [] [s, s]).map (·.text) = [s.text] := by
  set pp := pmap (s.aspect, s.evidenceGroup, s.qualifier) with hpp
  have hstep1 : mergeStep pmap [] s = [(pp.1, mergeStep pmap [] s |>.headD (pp.1,
      emptyMerger) |>.2)] := by
    simp [mergeStep, mUpdate]
  set M1 := (mergeStep pmap [] s).headD (pp.1, emptyMerger) |>.2 with hM1
  have hM1terms : M1.termsIds = s.termsIds := by
    simp only [hM1, mergeStep, mUpdate, ← hpp]
    simp only [List.headD_cons]
    have := foldAddSet_fresh s.termsIds emptyMerger.termsIds (by simp [emptyMerger]) hnd
    simp only [emptyMerger] at this ⊢
    simpa using this
  have hM1pofx : M1.pofxList = [pp.2] := by
    simp [hM1, mergeStep, mUpdate, ← hpp, emptyMerger]
  have hM1addl : M1.addlPfx = (if !s.addlPfx.isEmpty then s.addlPfx else "") := by
    simp [hM1, mergeStep, mUpdate, ← hpp, emptyMerger]
  have hms : ([s, s] : List GDSentence).foldl (mergeStep pmap) [] =
      mergeStep pmap [(pp.1, M1)] s := by
    simp only [List.foldl_cons, List.foldl_nil]
    rw [hstep1]
  have hstep2 : mergeStep pmap [(pp.1, M1)] s = [(pp.1,
      { M1 with
        pofxList := M1.pofxList ++ [pp.2]
        aspect := s.aspect
        qualifier := s.qualifier
        termsIds := s.termsIds.foldl
          (fun acc t => if t ∈ acc then acc else acc ++ [t]) M1.termsIds
        termPofx := s.termsIds.foldl (fun d t => dictSet d t pp.2) M1.termPofx
        evGroups := M1.evGroups ++ [s.evidenceGroup]
        termEvg := s.termsIds.foldl (fun d t => dictSet d t s.evidenceGroup) M1.termEvg
        addlPfx := if !s.addlPfx.isEmpty then s.addlPfx else M1.addlPfx
        ancMult := M1.ancMult ∪ s.ancMult
        anyTrimmed := M1.anyTrimmed || s.trimmedFlag })] := by
    simp [mergeStep, mUpdate, ← hpp]
  rw [mergeSentencesWithSamePfx, hms, hstep2]
  have htermsIds : s.termsIds.foldl
      (fun acc t => if t ∈ acc then acc else acc ++ [t]) M1.termsIds = s.termsIds := by
    rw [hM1terms]
    exact foldAddSet_stale s.termsIds s.termsIds (fun t ht => ht)
  simp only [Bool.false_eq_true, if_false, List.filterMap_cons, List.filterMap_nil]
  rw [htermsIds]
  have hnemp : s.termsIds.isEmpty = false := by
    cases hts : s.termsIds with
    | nil => exact absurd hts hne
    | cons a l => rfl
  simp only [hnemp, Bool.false_eq_true, if_false]
  have hmergedpofx : mergePostfixPhrases plural (M1.pofxList ++ [pp.2]) = "" := by
    rw [hM1pofx, hpofx]
    rfl
  have haddl : (if !s.addlPfx.isEmpty then s.addlPfx else M1.addlPfx) = s.addlPfx := by
    rw [hM1addl]
    cases hae : s.addlPfx.isEmpty
    · simp
    · have he : s.addlPfx = "" := (String.isEmpty_iff s.addlPfx).mp hae
      simp [hae, he]
  simp only [hmergedpofx, haddl]
  rw [htext, hpofx]
  rfl

/-- C9 witness: a concrete sentence with empty configured postfix merges
with itself to its own text. -/
theorem c9_witness :
    ((fun k => if k = ("C", "EXP", "") then ("Prefix", "") else ("", "x")) (sC.aspect,
      sC.evidenceGroup, sC.qualifier)).2 = "" ∧
    (mergeSentencesWithSamePfx ⟨[]⟩
      (fun k => if k = ("C", "EXP", "") then ("Prefix", "") else ("", "x"))
      (fun s => s ++ "s") false []
      [{ sC with text := composeSentence "Prefix" "" ["T"] "" },
       { sC with text := composeSentence "Prefix" "" ["T"] "" }]).map (·.text) =
      [({ sC with text := composeSentence "Prefix" "" ["T"] "" } : GDSentence).text] := by
  refine ⟨by decide, ?_⟩
  exact c9_merge_empty_postfix ⟨[]⟩
    (fun k => if k = ("C", "EXP", "") then ("Prefix", "") else ("", "x"))
    (fun s => s ++ "s") { sC with text := composeSentence "Prefix" "" ["T"] "" }
    (by decide) (by decide) (by decide) (by decide)

end GeneDesc
